import Mathlib

/-!
# Verification of sonLib's resizable list (`src/C/impl/sonLibList.c`)

Shallow embedding of the `stList` container and its iterator.

Modelling conventions:
* A C element pointer (`void *`) is `Ref α := Option α`; `none` models `NULL`.
* A possibly-`NULL` container pointer is `Option (StList α)`.
* An `assert` failure (abort) is modelled by returning `none` from an
  `Option`-valued function; the outer `Option` of such functions is the
  fault monad, not a data value.
* `int32_t` lengths are `Nat` (they are provably non-negative throughout) and
  `int32_t` index arguments are `Int` (they can be negative, e.g. in
  `stList_pop` on an empty list).  Overflow of `int32_t` is not modelled:
  every reachable capacity is bounded by what `st_malloc` can allocate.
* `st_malloc`/`st_calloc` never return `NULL` (they abort on failure), so the
  storage buffer is always a genuine `List` of `maxLength` slots;
  uninitialized slots (fresh `st_malloc` memory, never read by the API) are
  modelled as `none`.
* C `for` loops are fuel-based structural recursions, entered with fuel that
  dominates the remaining iteration count.
-/

namespace SonLib

/-- A stored element reference (`void *`): `none` models the C `NULL`. -/
abbrev Ref (α : Type) : Type := Option α

/-- The `stList` struct: `list` is the storage buffer (`maxLength` slots),
`length` the logical length, `maxLength` the capacity, `hasDestructor`
whether `destructElement != NULL` (a destructor callback is registered). -/
structure StList (α : Type) where
  list : List (Ref α)
  length : Nat
  maxLength : Nat
  hasDestructor : Bool
deriving Repr, DecidableEq

/-- `stList_length(stList *list)`: returns 0 on a `NULL` list pointer,
otherwise the stored logical length. -/
def stList_length (list : Option (StList α)) : Nat :=
  match list with
  | none => 0
  | some l => l.length

/-- The raw buffer read `list->list[index]` (no bounds assertion; the default
for an out-of-range read is irrelevant because every caller checks bounds). -/
def bufGet (l : StList α) (index : Nat) : Ref α :=
  l.list.getD index none

/-- `stList_construct3(int32_t length, void (*destructElement)(void *))`:
asserts `length >= 0`, then allocates a zeroed (`st_calloc`) buffer of
`length` slots with `length == maxLength == length`. -/
def stList_construct3 (length : Int) (hasDestructor : Bool) : Option (StList α) :=
  if 0 ≤ length then
    some { list := List.replicate length.toNat none,
           length := length.toNat,
           maxLength := length.toNat,
           hasDestructor := hasDestructor }
  else none

/-- `stList_construct(void)`: `stList_construct3(0, NULL)`. -/
def stList_construct : Option (StList α) :=
  stList_construct3 0 false

/-- `stList_construct2(int32_t size)`: `stList_construct3(size, NULL)`. -/
def stList_construct2 (size : Int) : Option (StList α) :=
  stList_construct3 size false

/-- `stList_get(stList *list, int32_t index)`: asserts
`0 <= index < stList_length(list)`, then reads the slot. -/
def stList_get (l : StList α) (index : Int) : Option (Ref α) :=
  if 0 ≤ index ∧ index < (stList_length (some l) : Int) then
    some (bufGet l index.toNat)
  else none

/-- `stList_set(stList *list, int32_t index, void *item)`: asserts
`0 <= index < stList_length(list)`, then overwrites the slot. -/
def stList_set (l : StList α) (index : Int) (item : Ref α) : Option (StList α) :=
  if 0 ≤ index ∧ index < (stList_length (some l) : Int) then
    some { l with list := l.list.set index.toNat item }
  else none

/-- `st_list_appendP(current, currentSize, newSize, base)`: asserts
`*currentSize <= newSize`, `st_malloc`s a fresh buffer of `newSize` slots,
`memcpy`s the first `currentSize` slots over, frees the old buffer and
returns the new buffer with the updated size.  Slots beyond `currentSize`
are uninitialized `st_malloc` memory (modelled `none`; never read). -/
def st_list_appendP (current : List (Ref α)) (currentSize newSize : Nat) :
    Option (List (Ref α) × Nat) :=
  if currentSize ≤ newSize then
    some (current.take currentSize ++ List.replicate (newSize - currentSize) none, newSize)
  else none

/-- `stList_append(stList *list, void *item)`: grows the buffer to
`maxLength*2 + MINIMUM_ARRAY_EXPAND_SIZE` slots when
`stList_length(list) >= maxLength` (`MINIMUM_ARRAY_EXPAND_SIZE = 5`), then
executes `list->list[list->length++] = item`. -/
def stList_append (l : StList α) (item : Ref α) : Option (StList α) :=
  if stList_length (some l) ≥ l.maxLength then
    match st_list_appendP l.list l.maxLength (l.maxLength * 2 + 5) with
    | none => none
    | some (buf, newSize) =>
        some { l with list := buf.set l.length item,
                      maxLength := newSize,
                      length := l.length + 1 }
  else
    some { l with list := l.list.set l.length item, length := l.length + 1 }

/-- The loop of `stList_appendAll`: `for i = 0 .. length(src)-1:
append(dst, get(src, i))`.  (The C code asserts `stListToAdd !=
stListToAddTo`; aliasing does not exist between immutable Lean values, so
the two arguments are always "distinct" here.) -/
def appendAllLoop (dst src : StList α) (i fuel : Nat) : Option (StList α) :=
  match fuel with
  | 0 => some dst
  | fuel + 1 =>
    if i < stList_length (some src) then
      match stList_get src (i : Int) with
      | none => none
      | some item =>
        match stList_append dst item with
        | none => none
        | some dst2 => appendAllLoop dst2 src (i + 1) fuel
    else some dst

/-- `stList_appendAll(stList *stListToAddTo, stList *stListToAdd)`. -/
def stList_appendAll (dst src : StList α) : Option (StList α) :=
  appendAllLoop dst src 0 (stList_length (some src))

/-- `stList_peek(stList *list)`: asserts `stList_length(list) > 0`, then
returns `stList_get(list, stList_length(list)-1)`. -/
def stList_peek (l : StList α) : Option (Ref α) :=
  if stList_length (some l) > 0 then
    stList_get l ((stList_length (some l) : Int) - 1)
  else none

/-- The shift loop of `stList_remove`: `for i = index+1 .. length-1:
stList_set(list, i-1, stList_get(list, i))`.  Both accesses are in range
(`1 <= i < length`), so the asserts inside `stList_get`/`stList_set` pass
and the loop is modelled on the raw buffer. -/
def removeShiftLoop (l : StList α) (i fuel : Nat) : StList α :=
  match fuel with
  | 0 => l
  | fuel + 1 =>
    if i < stList_length (some l) then
      removeShiftLoop { l with list := l.list.set (i - 1) (bufGet l i) } (i + 1) fuel
    else l

/-- `stList_remove(stList *list, int32_t index)`: asserts
`0 <= index < stList_length(list)`, saves `o = stList_get(list, index)`,
shifts every later element one slot earlier, decrements `length` and
returns `o`. -/
def stList_remove (l : StList α) (index : Int) : Option (Ref α × StList α) :=
  if 0 ≤ index ∧ index < (stList_length (some l) : Int) then
    let o := bufGet l index.toNat
    let l2 := removeShiftLoop l (index.toNat + 1) (stList_length (some l) - (index.toNat + 1))
    some (o, { l2 with length := l2.length - 1 })
  else none

/-- `stList_removeFirst(stList *list)`: `stList_remove(list, 0)`. -/
def stList_removeFirst (l : StList α) : Option (Ref α × StList α) :=
  stList_remove l 0

/-- `stList_pop(stList *list)`: `stList_remove(list, stList_length(list)-1)`
(the subtraction is `int32_t`, so it is `-1` on an empty list and the
assert inside `stList_remove` fires). -/
def stList_pop (l : StList α) : Option (Ref α × StList α) :=
  stList_remove l ((stList_length (some l) : Int) - 1)

/-- The loop of `stList_removeItem`: find the first `i` with
`stList_get(list, i) == item` (pointer identity) and remove it; fall
through (no-op) when the item does not occur.  `stList_remove` at an index
`i < length` never faults, so its `none` branch is unreachable here. -/
def removeItemLoop [DecidableEq α] (l : StList α) (item : Ref α) (i fuel : Nat) : StList α :=
  match fuel with
  | 0 => l
  | fuel + 1 =>
    if i < stList_length (some l) then
      if bufGet l i = item then
        match stList_remove l (i : Int) with
        | some (_, l2) => l2
        | none => l
      else removeItemLoop l item (i + 1) fuel
    else l

/-- `stList_removeItem(stList *list, void *item)`. -/
def stList_removeItem [DecidableEq α] (l : StList α) (item : Ref α) : StList α :=
  removeItemLoop l item 0 (stList_length (some l))

/-- The loop of `stList_reverse`: `for i = 0 .. j/2 - 1` swap the slots `i`
and `j-1-i` (both in range since `j = length`), via
`stList_get`/`stList_set` whose asserts pass. -/
def reverseLoop (l : StList α) (i j fuel : Nat) : StList α :=
  match fuel with
  | 0 => l
  | fuel + 1 =>
    if i < j / 2 then
      let o := bufGet l (j - 1 - i)
      let l2 := { l with list := l.list.set (j - 1 - i) (bufGet l i) }
      let l3 := { l2 with list := l2.list.set i o }
      reverseLoop l3 (i + 1) j fuel
    else l

/-- `stList_reverse(stList *list)`. -/
def stList_reverse (l : StList α) : StList α :=
  reverseLoop l 0 (stList_length (some l)) (stList_length (some l) / 2)

/-!  ## Teardown

`stList_destruct` frees memory and calls the element destructor; its
observable behaviour is the sequence of actions it performs, modelled as a
trace of events. -/

/-- One observable teardown action of `stList_destruct`. -/
inductive DestructEvent (α : Type) where
  | destructElem (a : α)
  | freeBuffer
  | freeContainer
deriving Repr, DecidableEq

/-- The loop of `destructElements`: `for i = 0 .. length-1: if
stList_get(list, i) != NULL: list->destructElement(stList_get(list, i))`.
The trace records each destructor invocation with its argument. -/
def destructElementsLoop (l : StList α) (i fuel : Nat) : List (DestructEvent α) :=
  match fuel with
  | 0 => []
  | fuel + 1 =>
    if i < stList_length (some l) then
      (match bufGet l i with
       | none => []
       | some a => [DestructEvent.destructElem a]) ++ destructElementsLoop l (i + 1) fuel
    else []

/-- `destructElements(stList *list)` (static helper). -/
def destructElements (l : StList α) : List (DestructEvent α) :=
  destructElementsLoop l 0 (stList_length (some l))

/-- `stList_destruct(stList *list)`: no-op on `NULL`; otherwise run the
destructor over the elements when one is registered, then `free` the buffer
(`st_calloc`/`st_malloc` never return `NULL`, so the `list->list != NULL`
guard always passes here), then `free` the struct. -/
def stList_destruct (list : Option (StList α)) : List (DestructEvent α) :=
  match list with
  | none => []
  | some l =>
    (if l.hasDestructor then destructElements l else []) ++
      [DestructEvent.freeBuffer, DestructEvent.freeContainer]

/-- The arguments the registered destructor is invoked on, in invocation
order, during `stList_destruct`. -/
def destructorCalls (list : Option (StList α)) : List α :=
  (stList_destruct list).filterMap fun e =>
    match e with
    | DestructEvent.destructElem a => some a
    | _ => none

/-!  ## Iterator -/

/-- The `stListIterator` struct: a (possibly `NULL`) container pointer and a
cursor index. -/
structure StListIterator (α : Type) where
  list : Option (StList α)
  index : Nat
deriving Repr, DecidableEq

/-- `stList_getIterator(stList *list)`: cursor at 0. -/
def stList_getIterator (list : Option (StList α)) : StListIterator α :=
  { list := list, index := 0 }

/-- `stList_getNext(stListIterator *iterator)`: returns `NULL` without
moving when the container is `NULL` or `index >= stList_length(list)`;
otherwise returns `stList_get(list, iterator->index++)` (in range, so the
assert passes).  The returned value and the updated iterator. -/
def stList_getNext (it : StListIterator α) : Ref α × StListIterator α :=
  match it.list with
  | none => (none, it)
  | some l =>
    if it.index ≥ stList_length (some l) then (none, it)
    else (bufGet l it.index, { it with index := it.index + 1 })

/-- `stList_getPrevious(stListIterator *iterator)`: returns `NULL` without
moving when the container is `NULL` or `index == 0`; otherwise returns
`stList_get(list, --iterator->index)`. -/
def stList_getPrevious (it : StListIterator α) : Ref α × StListIterator α :=
  match it.list with
  | none => (none, it)
  | some l =>
    if it.index = 0 then (none, it)
    else (bufGet l (it.index - 1), { it with index := it.index - 1 })

/-- `stList_copyIterator(stListIterator *iterator)`: same container, same
cursor, independent thereafter. -/
def stList_copyIterator (it : StListIterator α) : StListIterator α :=
  { stList_getIterator it.list with index := it.index }

/-- The cursor advance of one `stList_getNext` call. -/
def nextCursor (it : StListIterator α) : StListIterator α :=
  (stList_getNext it).2

/-!  ## Sort, shuffle, filters -/

/-- Modelled from the spec: `stList_sort` hands the buffer to libc `qsort`
(not part of this repository) through the `st_list_sortP` adapter; the spec
promises an in-place reorder of the `length` live elements by the 3-way
comparator, with stability unspecified.  We realize the reorder with
`List.mergeSort` on "compares ≤ 0"; the unused tail of the buffer is
untouched. -/
def stList_sort (l : StList α) (cmpFn : Ref α → Ref α → Int) : StList α :=
  { l with list :=
      ((l.list.take l.length).mergeSort fun a b => decide (cmpFn a b ≤ 0)) ++
        l.list.drop l.length }

/-- The loop of `stList_shuffle`: `for i = 0 .. length-1`: draw
`j = st_randomInt(0, length)` and swap slots `i` and `j`.
`st_randomInt` (not part of this repository) is modelled from the spec as a
black-box source of draws, passed in as `rand : Nat → Nat` giving the draw
of each iteration; a draw outside `[0, length)` would fail the assert
inside `stList_get`, modelled by the `none` branch. -/
def shuffleLoop (l : StList α) (rand : Nat → Nat) (i fuel : Nat) : Option (StList α) :=
  match fuel with
  | 0 => some l
  | fuel + 1 =>
    if i < stList_length (some l) then
      let j := rand i
      if j < stList_length (some l) then
        let o := bufGet l i
        let l2 := { l with list := l.list.set i (bufGet l j) }
        let l3 := { l2 with list := l2.list.set j o }
        shuffleLoop l3 rand (i + 1) fuel
      else none
    else some l

/-- `stList_shuffle(stList *list)`, parametrized by the random draws. -/
def stList_shuffle (l : StList α) (rand : Nat → Nat) : Option (StList α) :=
  shuffleLoop l rand 0 (stList_length (some l))

/-- The loop of `stList_filter`: append to `acc` each element satisfying
`fn`, in index order. -/
def filterLoop (l : StList α) (fn : Ref α → Bool) (i fuel : Nat) (acc : StList α) :
    Option (StList α) :=
  match fuel with
  | 0 => some acc
  | fuel + 1 =>
    if i < stList_length (some l) then
      match (if fn (bufGet l i) then stList_append acc (bufGet l i) else some acc) with
      | none => none
      | some acc2 => filterLoop l fn (i + 1) fuel acc2
    else some acc

/-- `stList_filter(stList *list, bool (*fn)(void *))`: new list (built by
`stList_construct`) of the elements satisfying `fn`, in original order. -/
def stList_filter (l : StList α) (fn : Ref α → Bool) : Option (StList α) :=
  match stList_construct with
  | none => none
  | some acc => filterLoop l fn 0 (stList_length (some l)) acc

/-- The loop of `filterP`: append `o = stList_get(list, i)` to the result
when `(stSortedSet_search(set, o) != NULL && include) ||
(stSortedSet_search(set, o) == NULL && !include)`.  The sorted set is an
external collaborator (`stSortedSet` is not part of this repository);
modelled from the spec by the boolean test
`search o = (stSortedSet_search(set, o) != NULL)`. -/
def filterPLoop (l : StList α) (search : Ref α → Bool) (incl : Bool) (i fuel : Nat)
    (acc : StList α) : Option (StList α) :=
  match fuel with
  | 0 => some acc
  | fuel + 1 =>
    if i < stList_length (some l) then
      match (if (search (bufGet l i) && incl) || (!search (bufGet l i) && !incl) then
               stList_append acc (bufGet l i)
             else some acc) with
      | none => none
      | some acc2 => filterPLoop l search incl (i + 1) fuel acc2
    else some acc

/-- `filterP(stList *list, stSortedSet *set, bool include)` (static
helper): a new list with the intersection with `set` (`include` true) or
the set difference (`include` false). -/
def filterP (l : StList α) (search : Ref α → Bool) (incl : Bool) : Option (StList α) :=
  match stList_construct with
  | none => none
  | some acc => filterPLoop l search incl 0 (stList_length (some l)) acc

/-- `stList_filterToExclude(stList *list, stSortedSet *set)`:
`filterP(list, set, 0)`. -/
def stList_filterToExclude (l : StList α) (search : Ref α → Bool) : Option (StList α) :=
  filterP l search false

/-- `stList_filterToInclude(stList *list, stSortedSet *set)`:
`filterP(list, set, 1)`. -/
def stList_filterToInclude (l : StList α) (search : Ref α → Bool) : Option (StList α) :=
  filterP l search true

/-!  ## Derived notions used by the statements -/

/-- The live elements: the contents of slots `[0, length)`, in index order. -/
def liveElems (l : StList α) : List (Ref α) :=
  l.list.take l.length

/-- Well-formedness of an `stList`: the logical length never exceeds the
capacity, and the buffer really has `maxLength` slots. -/
def listWF (l : StList α) : Prop :=
  l.length ≤ l.maxLength ∧ l.list.length = l.maxLength

instance (l : StList α) : Decidable (listWF l) := by
  unfold listWF; infer_instance

/-- A sequence of `stList_append` calls, one per element of `xs`, in order
(the fault monad threads through). -/
def appendMany (l : StList α) (xs : List (Ref α)) : Option (StList α) :=
  match xs with
  | [] => some l
  | x :: rest =>
    match stList_append l x with
    | none => none
    | some l2 => appendMany l2 rest

/-!  ## Concrete instances used to exercise the theorems -/

/-- The empty list produced by `stList_construct`. -/
def emptyNatList : StList Nat := { list := [], length := 0, maxLength := 0, hasDestructor := false }

/-- A list of length 1 whose only live element is the `NULL` reference, with
a destructor registered. -/
def nullElementList : StList Nat :=
  { list := [none], length := 1, maxLength := 1, hasDestructor := true }

/-- A length-3 list holding `7`, `NULL`, `3`, with a destructor registered. -/
def destructDemoList : StList Nat :=
  { list := [some 7, none, some 3], length := 3, maxLength := 3, hasDestructor := true }

/-- A well-formed list `[1, 2, 3]` with two spare slots. -/
def demoList : StList Nat :=
  { list := [some 1, some 2, some 3, none, none], length := 3, maxLength := 5,
    hasDestructor := false }

/-- A list `[1, 2]` at full capacity (`length = maxLength`). -/
def fullDemoList : StList Nat :=
  { list := [some 1, some 2], length := 2, maxLength := 2, hasDestructor := false }

/-- A length-2 list whose first live element is the `NULL` reference. -/
def nullFirstList : StList Nat :=
  { list := [none, some 5], length := 2, maxLength := 2, hasDestructor := false }

/-!  ## Basic lemmas -/

theorem stList_length_some (l : StList α) : stList_length (some l) = l.length := rfl

theorem bufGet_eq_getElem (l : StList α) (i : Nat) (h : i < l.list.length) :
    bufGet l i = l.list[i] :=
  List.getD_eq_getElem l.list none h

theorem liveElems_length (l : StList α) (hWF : listWF l) :
    (liveElems l).length = l.length := by
  have := hWF.1; have := hWF.2
  simp only [liveElems, List.length_take]
  omega

theorem liveElems_getElem (l : StList α) (i : Nat) (h : i < (liveElems l).length)
    (hb : i < l.list.length) : (liveElems l)[i] = l.list[i] := by
  simp only [liveElems, List.getElem_take]

theorem bufGet_eq_liveElems (l : StList α) (hWF : listWF l) (i : Nat) (h : i < l.length) :
    bufGet l i = (liveElems l).getD i none := by
  have h1 : i < (liveElems l).length := by rw [liveElems_length l hWF]; exact h
  have h2 : i < l.list.length := by
    simp only [liveElems, List.length_take] at h1; omega
  rw [bufGet_eq_getElem l i h2, List.getD_eq_getElem _ _ h1, liveElems_getElem l i h1 h2]

theorem stList_get_nat (l : StList α) (i : Nat) (h : i < l.length) :
    stList_get l (i : Int) = some (bufGet l i) := by
  have hc : 0 ≤ (i : Int) ∧ (i : Int) < (stList_length (some l) : Int) := by
    constructor
    · exact Int.natCast_nonneg i
    · rw [stList_length_some]; exact_mod_cast h
  rw [stList_get, if_pos hc, Int.toNat_natCast]

/-- `getD` through `set`. -/
theorem getD_set (xs : List β) (i j : Nat) (a d : β) :
    (xs.set i a).getD j d = if i = j ∧ j < xs.length then a else xs.getD j d := by
  rw [List.getD_eq_getElem?_getD, List.getD_eq_getElem?_getD, List.getElem?_set]
  by_cases hij : i = j
  · subst hij
    by_cases hi : i < xs.length
    · simp [hi]
    · simp [hi, List.getElem?_eq_none (Nat.le_of_not_lt hi)]
  · simp [hij]

/-!  ## `stList_append` characterization -/

theorem append_eq (l : StList α) (x : Ref α) (hWF : listWF l) :
    ∃ l2, stList_append l x = some l2 ∧ listWF l2 ∧
      l2.length = l.length + 1 ∧
      l2.hasDestructor = l.hasDestructor ∧
      liveElems l2 = liveElems l ++ [x] ∧
      l2.maxLength = (if l.length < l.maxLength then l.maxLength else l.maxLength * 2 + 5) ∧
      (l.length < l.maxLength → l2.list = l.list.set l.length x) := by
  obtain ⟨hlen, hbuf⟩ := hWF
  by_cases hfull : l.length ≥ l.maxLength
  · -- reallocation branch
    have heq : l.length = l.maxLength := Nat.le_antisymm hlen hfull
    have hgrow : l.maxLength ≤ l.maxLength * 2 + 5 := by omega
    have hbufeq : l.list.take l.maxLength = l.list := List.take_of_length_le (by omega)
    have happ : st_list_appendP l.list l.maxLength (l.maxLength * 2 + 5) =
        some (l.list ++ List.replicate (l.maxLength + 5) none, l.maxLength * 2 + 5) := by
      rw [st_list_appendP, if_pos hgrow, hbufeq]
      have : l.maxLength * 2 + 5 - l.maxLength = l.maxLength + 5 := by omega
      rw [this]
    refine ⟨{ l with
        list := (l.list ++ List.replicate (l.maxLength + 5) none).set l.length x,
        maxLength := l.maxLength * 2 + 5,
        length := l.length + 1 }, ?_, ?_, ?_, ?_, ?_, ?_, ?_⟩
    · rw [stList_append, if_pos (by rw [stList_length_some]; exact hfull), happ]
    · constructor
      · simp only []; omega
      · simp only [List.length_set, List.length_append, List.length_replicate]; omega
    · rfl
    · rfl
    · -- live prefix: the copied elements followed by the new element
      show ((l.list ++ List.replicate (l.maxLength + 5) none).set l.length x).take
            (l.length + 1) = l.list.take l.length ++ [x]
      have hrep : List.replicate (l.maxLength + 5) (none : Ref α) =
          none :: List.replicate (l.maxLength + 4) none := by
        rw [show l.maxLength + 5 = (l.maxLength + 4) + 1 by omega, List.replicate_succ]
      have hset : (l.list ++ List.replicate (l.maxLength + 5) none).set l.length x =
          l.list ++ x :: List.replicate (l.maxLength + 4) (none : Ref α) := by
        rw [List.set_append_right _ _ (by omega), hrep]
        have : l.length - l.list.length = 0 := by omega
        rw [this, List.set_cons_zero]
      rw [hset, List.take_append_eq_append_take, List.take_of_length_le (by omega)]
      have h1 : l.length + 1 - l.list.length = 1 := by omega
      rw [h1]
      simp only [List.take_succ_cons, List.take_zero]
      rw [List.take_of_length_le (by omega)]
    · rw [if_neg (by omega)]
    · intro h; omega
  · -- in-place branch
    push_neg at hfull
    refine ⟨{ l with list := l.list.set l.length x, length := l.length + 1 },
      ?_, ?_, ?_, ?_, ?_, ?_, ?_⟩
    · rw [stList_append, if_neg (by rw [stList_length_some]; omega)]
    · constructor
      · simp only []; omega
      · simp only [List.length_set]; omega
    · rfl
    · rfl
    · show (l.list.set l.length x).take (l.length + 1) = l.list.take l.length ++ [x]
      rw [List.set_eq_take_cons_drop _ (by omega), List.take_append_eq_append_take,
        List.take_of_length_le (by simp only [List.length_take]; omega)]
      have : l.length + 1 - (l.list.take l.length).length = 1 := by
        simp only [List.length_take]; omega
      rw [this]
      simp
    · rw [if_pos hfull]
    · intro _; rfl

theorem appendMany_eq (xs : List (Ref α)) : ∀ (l : StList α), listWF l →
    ∃ l2, appendMany l xs = some l2 ∧ listWF l2 ∧
      l2.length = l.length + xs.length ∧
      liveElems l2 = liveElems l ++ xs := by
  induction xs with
  | nil =>
    intro l hWF
    exact ⟨l, rfl, hWF, by simp, by simp⟩
  | cons x rest ih =>
    intro l hWF
    obtain ⟨l1, he1, hwf1, hlen1, _, hlive1, _, _⟩ := append_eq l x hWF
    obtain ⟨l2, he2, hwf2, hlen2, hlive2⟩ := ih l1 hwf1
    refine ⟨l2, ?_, hwf2, ?_, ?_⟩
    · simp only [appendMany]
      rw [he1]
      exact he2
    · rw [hlen2, hlen1, List.length_cons]
      omega
    · rw [hlive2, hlive1, List.append_assoc, List.singleton_append]

/-- C2: `stList_append` on a full list (`length == maxLength`) reallocates
the buffer to exactly `max(maxLength*2 + 5, maxLength + 1)` slots while
preserving the live elements in their positions, then writes the new item at
index `length` and increments `length`; when `length < maxLength` the buffer
is written in place (no reallocation). -/
theorem append_growth_spec (l : StList α) (x : Ref α) (hWF : listWF l) :
    (l.length = l.maxLength →
      ∃ l2, stList_append l x = some l2 ∧
        l2.maxLength = max (l.maxLength * 2 + 5) (l.maxLength + 1) ∧
        liveElems l2 = liveElems l ++ [x] ∧
        l2.length = l.length + 1) ∧
    (l.length < l.maxLength →
      ∃ l2, stList_append l x = some l2 ∧
        l2.maxLength = l.maxLength ∧
        l2.list = l.list.set l.length x ∧
        liveElems l2 = liveElems l ++ [x] ∧
        l2.length = l.length + 1) := by
  obtain ⟨l2, heq, _, hlen2, _, hlive, hmax, hbuf⟩ := append_eq l x hWF
  constructor
  · intro hfull
    refine ⟨l2, heq, ?_, hlive, hlen2⟩
    rw [hmax, if_neg (by omega)]
    omega
  · intro hlt
    exact ⟨l2, heq, by rw [hmax, if_pos hlt], hbuf hlt, hlive, hlen2⟩

theorem append_growth_spec_witness :
    listWF fullDemoList ∧
    (∃ l2, stList_append fullDemoList (some 9) = some l2 ∧
      l2.maxLength = max (fullDemoList.maxLength * 2 + 5) (fullDemoList.maxLength + 1) ∧
      liveElems l2 = liveElems fullDemoList ++ [some 9] ∧
      l2.length = fullDemoList.length + 1) :=
  ⟨by decide, (append_growth_spec fullDemoList (some 9) (by decide)).1 rfl⟩

/-- C3: starting from `stList_construct`, after appending the values `xs`
in order, `stList_length` is `xs.length` and `stList_get i` returns the
`i`-th appended value, for every `i < xs.length`. -/
theorem append_sequence_spec (xs : List (Ref α)) (l0 : StList α)
    (h0 : stList_construct = some l0) :
    ∃ lN, appendMany l0 xs = some lN ∧
      stList_length (some lN) = xs.length ∧
      ∀ i : Nat, i < xs.length → stList_get lN (i : Int) = some (xs.getD i none) := by
  have hl0 : l0 = { list := [], length := 0, maxLength := 0, hasDestructor := false } := by
    rw [stList_construct, stList_construct3, if_pos (by omega)] at h0
    simpa using h0.symm
  subst hl0
  obtain ⟨lN, he, hwf, hlen, hlive⟩ :=
    appendMany_eq xs { list := [], length := 0, maxLength := 0, hasDestructor := false }
      ⟨by simp, by simp⟩
  have hlive2 : liveElems lN = xs := by
    rw [hlive]; rfl
  have hlenN : lN.length = xs.length := by
    rw [hlen]
    simp
  refine ⟨lN, he, by rw [stList_length_some, hlenN], ?_⟩
  intro i hi
  rw [stList_get_nat lN i (by omega), bufGet_eq_liveElems lN hwf i (by omega), hlive2]

theorem append_sequence_spec_witness :
    stList_construct = some emptyNatList ∧
    (∃ lN, appendMany emptyNatList [some 10, some 20, some 30] = some lN ∧
      stList_length (some lN) = [some 10, some 20, some 30].length ∧
      ∀ i : Nat, i < [some 10, some 20, some 30].length →
        stList_get lN (i : Int) = some ([some 10, some 20, some 30].getD i none)) :=
  ⟨by decide, append_sequence_spec [some 10, some 20, some 30] emptyNatList (by decide)⟩

/-!  ## `stList_remove` characterization -/

theorem removeShiftLoop_getD (fuel : Nat) : ∀ (l : StList α) (k : Nat),
    l.length ≤ l.list.length → 1 ≤ k → l.length - k ≤ fuel →
    (removeShiftLoop l k fuel).length = l.length ∧
    (removeShiftLoop l k fuel).maxLength = l.maxLength ∧
    (removeShiftLoop l k fuel).hasDestructor = l.hasDestructor ∧
    (removeShiftLoop l k fuel).list.length = l.list.length ∧
    ∀ p : Nat, (removeShiftLoop l k fuel).list.getD p none =
      if k - 1 ≤ p ∧ p + 1 < l.length then l.list.getD (p + 1) none
      else l.list.getD p none := by
  induction fuel with
  | zero =>
    intro l k hbl hk hfuel
    refine ⟨rfl, rfl, rfl, rfl, ?_⟩
    intro p
    rw [if_neg (by omega)]
    rfl
  | succ fuel ih =>
    intro l k hbl hk hfuel
    by_cases hlt : k < stList_length (some l)
    · rw [stList_length_some] at hlt
      have hrw : removeShiftLoop l k (fuel + 1) =
          removeShiftLoop { l with list := l.list.set (k - 1) (bufGet l k) } (k + 1) fuel := by
        simp only [removeShiftLoop]
        rw [if_pos (by rw [stList_length_some]; exact hlt)]
      obtain ⟨ih1, ih2, ih3, ih4, ih5⟩ :=
        ih { l with list := l.list.set (k - 1) (bufGet l k) } (k + 1)
          (by simp only [List.length_set]; exact hbl) (by omega) (by simp only []; omega)
      rw [hrw]
      simp only [List.length_set] at ih4
      refine ⟨ih1, ih2, ih3, ih4, ?_⟩
      intro p
      rw [ih5 p]
      simp only [getD_set, List.length_set]
      by_cases h1 : k ≤ p ∧ p + 1 < l.length
      · rw [if_pos (by omega), if_neg (by omega), if_pos (by omega)]
      · by_cases h2 : p = k - 1
        · subst h2
          rw [if_neg (by omega), if_pos (by omega), if_pos (by omega)]
          show bufGet l k = l.list.getD (k - 1 + 1) none
          rw [bufGet]
          congr 1
          omega
        · rw [if_neg (by omega), if_neg (by omega), if_neg (by omega)]
    · rw [stList_length_some] at hlt
      have hrw : removeShiftLoop l k (fuel + 1) = l := by
        simp only [removeShiftLoop]
        rw [if_neg (by rw [stList_length_some]; omega)]
      rw [hrw]
      refine ⟨rfl, rfl, rfl, rfl, ?_⟩
      intro p
      rw [if_neg (by omega)]

theorem remove_eq (l : StList α) (idx : Nat) (hWF : listWF l) (h : idx < l.length) :
    ∃ l2, stList_remove l (idx : Int) = some (bufGet l idx, l2) ∧
      listWF l2 ∧
      l2.length = l.length - 1 ∧
      l2.maxLength = l.maxLength ∧
      l2.hasDestructor = l.hasDestructor ∧
      l2.list.length = l.list.length ∧
      (∀ p : Nat, l2.list.getD p none =
        if idx ≤ p ∧ p + 1 < l.length then l.list.getD (p + 1) none
        else l.list.getD p none) ∧
      liveElems l2 = (liveElems l).eraseIdx idx := by
  obtain ⟨hlen, hbuf⟩ := hWF
  obtain ⟨s1, s2, s3, s4, s5⟩ :=
    removeShiftLoop_getD (stList_length (some l) - (idx + 1)) l (idx + 1)
      (by omega) (by omega) (by rw [stList_length_some])
  have hc : 0 ≤ (idx : Int) ∧ (idx : Int) < (stList_length (some l) : Int) := by
    constructor
    · exact Int.natCast_nonneg idx
    · rw [stList_length_some]; exact_mod_cast h
  have heq : stList_remove l (idx : Int) =
      some (bufGet l idx,
        { removeShiftLoop l (idx + 1) (stList_length (some l) - (idx + 1)) with
          length :=
            (removeShiftLoop l (idx + 1) (stList_length (some l) - (idx + 1))).length - 1 }) := by
    rw [stList_remove, if_pos hc, Int.toNat_natCast]
  refine ⟨_, heq, ?_, ?_, ?_, ?_, ?_, ?_, ?_⟩
  · constructor
    · dsimp only []
      rw [s1, s2]
      omega
    · dsimp only []
      rw [s4, s2]
      exact hbuf
  · dsimp only []
    rw [s1]
  · dsimp only []
    exact s2
  · dsimp only []
    exact s3
  · dsimp only []
    exact s4
  · intro p
    dsimp only []
    have := s5 p
    simp only [Nat.add_sub_cancel] at this
    exact this
  · -- the live prefix after removal is `eraseIdx idx` of the old live prefix
    dsimp only [liveElems]
    rw [s1]
    have hlive_len : ((removeShiftLoop l (idx + 1)
        (stList_length (some l) - (idx + 1))).list.take (l.length - 1)).length =
        l.length - 1 := by
      simp only [List.length_take, s4]
      omega
    have herase_len : ((l.list.take l.length).eraseIdx idx).length = l.length - 1 := by
      rw [List.length_eraseIdx]
      simp only [List.length_take]
      rw [if_pos (by omega)]
      omega
    apply List.ext_getElem (by rw [hlive_len, herase_len])
    intro p h1 h2
    rw [hlive_len] at h1
    have hp1 : p < (removeShiftLoop l (idx + 1)
        (stList_length (some l) - (idx + 1))).list.length := by rw [s4]; omega
    rw [List.getElem_take, List.getElem_eraseIdx]
    have hgetD := s5 p
    simp only [Nat.add_sub_cancel] at hgetD
    rw [List.getD_eq_getElem _ _ hp1] at hgetD
    by_cases hpi : p < idx
    · rw [dif_pos hpi]
      rw [if_neg (by omega)] at hgetD
      rw [List.getD_eq_getElem _ _ (by omega : p < l.list.length)] at hgetD
      rw [hgetD, List.getElem_take]
    · rw [dif_neg hpi]
      rw [if_pos (by omega)] at hgetD
      rw [List.getD_eq_getElem _ _ (by omega : p + 1 < l.list.length)] at hgetD
      rw [hgetD, List.getElem_take]

/-- C4: `stList_remove(index)` returns the element at `index`, shifts every
later live element one slot earlier (preserving the relative order of the
remaining elements, i.e. the live prefix becomes `eraseIdx index` of the old
one) and decrements `length` by exactly 1; `stList_removeFirst` is
`stList_remove` at index 0. -/
theorem remove_shifts_spec (l : StList α) (idx : Nat) (hWF : listWF l) (h : idx < l.length) :
    ∃ l2, stList_remove l (idx : Int) = some (bufGet l idx, l2) ∧
      l2.length = l.length - 1 ∧
      liveElems l2 = (liveElems l).eraseIdx idx ∧
      (∀ p : Nat, p < idx → bufGet l2 p = bufGet l p) ∧
      (∀ p : Nat, idx ≤ p → p + 1 < l.length → bufGet l2 p = bufGet l (p + 1)) ∧
      stList_removeFirst l = stList_remove l (0 : Int) := by
  obtain ⟨l2, heq, _, hlen2, _, _, _, hgetD, hlive⟩ := remove_eq l idx hWF h
  refine ⟨l2, heq, hlen2, hlive, ?_, ?_, rfl⟩
  · intro p hp
    show l2.list.getD p none = l.list.getD p none
    rw [hgetD p, if_neg (by omega)]
  · intro p hp1 hp2
    show l2.list.getD p none = l.list.getD (p + 1) none
    rw [hgetD p, if_pos (by omega)]

theorem remove_shifts_spec_witness :
    listWF demoList ∧ 1 < demoList.length ∧
    (∃ l2, stList_remove demoList ((1 : Nat) : Int) = some (bufGet demoList 1, l2) ∧
      l2.length = demoList.length - 1 ∧
      liveElems l2 = (liveElems demoList).eraseIdx 1 ∧
      (∀ p : Nat, p < 1 → bufGet l2 p = bufGet demoList p) ∧
      (∀ p : Nat, 1 ≤ p → p + 1 < demoList.length → bufGet l2 p = bufGet demoList (p + 1)) ∧
      stList_removeFirst demoList = stList_remove demoList (0 : Int)) :=
  ⟨by decide, by decide, remove_shifts_spec demoList 1 (by decide) (by decide)⟩

/-- C7: `stList_pop` is literally `stList_remove(list, stList_length(list)-1)`;
on a non-empty list it returns the last live element and decrements `length`
by 1, and on an empty list the `int32_t` index is `-1`, so the assert inside
`stList_remove` fires (modelled as `none`) instead of returning an
"empty list" sentinel value. -/
theorem pop_spec (l : StList α) (hWF : listWF l) :
    stList_pop l = stList_remove l ((stList_length (some l) : Int) - 1) ∧
    (0 < l.length →
      ∃ l2, stList_pop l = some (bufGet l (l.length - 1), l2) ∧
        l2.length = l.length - 1) ∧
    (l.length = 0 → stList_pop l = none) := by
  refine ⟨rfl, ?_, ?_⟩
  · intro hpos
    obtain ⟨l2, he, _, hlen2, _⟩ := remove_eq l (l.length - 1) hWF (by omega)
    refine ⟨l2, ?_, hlen2⟩
    rw [stList_pop]
    have hcast : (stList_length (some l) : Int) - 1 = ((l.length - 1 : Nat) : Int) := by
      rw [stList_length_some]
      omega
    rw [hcast]
    exact he
  · intro hz
    have hneg : ¬(0 ≤ (stList_length (some l) : Int) - 1 ∧
        (stList_length (some l) : Int) - 1 < (stList_length (some l) : Int)) := by
      rw [stList_length_some, hz]
      omega
    rw [stList_pop, stList_remove, if_neg hneg]

theorem pop_spec_witness :
    listWF demoList ∧ 0 < demoList.length ∧
    (∃ l2, stList_pop demoList = some (bufGet demoList (demoList.length - 1), l2) ∧
      l2.length = demoList.length - 1) :=
  ⟨by decide, by decide, (pop_spec demoList (by decide)).2.1 (by decide)⟩

/-!  ## `stList_reverse` characterization -/

theorem list_ext_getD {β : Type} (d : β) (xs ys : List β) (hlen : xs.length = ys.length)
    (h : ∀ p : Nat, xs.getD p d = ys.getD p d) : xs = ys := by
  apply List.ext_getElem hlen
  intro p h1 h2
  have := h p
  rwa [List.getD_eq_getElem _ _ h1, List.getD_eq_getElem _ _ h2] at this

theorem reverseLoop_getD (fuel : Nat) : ∀ (l : StList α) (i j : Nat),
    j ≤ l.list.length → i ≤ j / 2 → j / 2 - i ≤ fuel →
    (reverseLoop l i j fuel).length = l.length ∧
    (reverseLoop l i j fuel).maxLength = l.maxLength ∧
    (reverseLoop l i j fuel).hasDestructor = l.hasDestructor ∧
    (reverseLoop l i j fuel).list.length = l.list.length ∧
    ∀ p : Nat, (reverseLoop l i j fuel).list.getD p none =
      if i ≤ p ∧ p < j - i then l.list.getD (j - 1 - p) none
      else l.list.getD p none := by
  induction fuel with
  | zero =>
    intro l i j hj hij hfuel
    refine ⟨rfl, rfl, rfl, rfl, ?_⟩
    intro p
    by_cases hc : i ≤ p ∧ p < j - i
    · rw [if_pos hc]
      have hmid : j - 1 - p = p := by omega
      rw [hmid]
      rfl
    · rw [if_neg hc]
      rfl
  | succ fuel ih =>
    intro l i j hj hij hfuel
    by_cases hlt : i < j / 2
    · have hrw : reverseLoop l i j (fuel + 1) =
          reverseLoop
            { l with list := (l.list.set (j - 1 - i) (bufGet l i)).set i (bufGet l (j - 1 - i)) }
            (i + 1) j fuel := by
        simp only [reverseLoop]
        rw [if_pos hlt]
      obtain ⟨ih1, ih2, ih3, ih4, ih5⟩ :=
        ih { l with list := (l.list.set (j - 1 - i) (bufGet l i)).set i (bufGet l (j - 1 - i)) }
          (i + 1) j (by simp only [List.length_set]; exact hj) (by omega) (by omega)
      rw [hrw]
      simp only [List.length_set] at ih4
      refine ⟨ih1, ih2, ih3, ih4, ?_⟩
      intro p
      rw [ih5 p]
      simp only [getD_set, List.length_set]
      have hii : i < j - 1 - i := by omega
      have hjl : j - 1 - i < l.list.length := by omega
      by_cases h2 : p = i
      · rw [if_neg (by omega), if_pos (show i = p ∧ p < l.list.length by omega),
          if_pos (by omega)]
        rw [bufGet]
        congr 1
        omega
      · by_cases h3 : p = j - 1 - i
        · rw [if_neg (by omega), if_neg (by omega),
            if_pos (show j - 1 - i = p ∧ p < l.list.length by omega), if_pos (by omega)]
          rw [bufGet]
          congr 1
          omega
        · by_cases h1 : i + 1 ≤ p ∧ p < j - (i + 1)
          · rw [if_pos h1, if_neg (by omega), if_neg (by omega), if_pos (by omega)]
          · rw [if_neg h1, if_neg (by omega), if_neg (by omega), if_neg (by omega)]
    · have hrw : reverseLoop l i j (fuel + 1) = l := by
        simp only [reverseLoop]
        rw [if_neg hlt]
      rw [hrw]
      refine ⟨rfl, rfl, rfl, rfl, ?_⟩
      intro p
      by_cases hc : i ≤ p ∧ p < j - i
      · rw [if_pos hc]
        have hmid : j - 1 - p = p := by omega
        rw [hmid]
      · rw [if_neg hc]

theorem getD_reverse {β : Type} (d : β) (xs : List β) (p : Nat) (hp : p < xs.length) :
    xs.reverse.getD p d = xs.getD (xs.length - 1 - p) d := by
  rw [List.getD_eq_getElem _ _ (by rw [List.length_reverse]; exact hp),
    List.getElem_reverse, List.getD_eq_getElem _ _ (by omega)]

theorem reverse_getD (l : StList α) (hWF : listWF l) :
    (stList_reverse l).length = l.length ∧
    (stList_reverse l).maxLength = l.maxLength ∧
    (stList_reverse l).hasDestructor = l.hasDestructor ∧
    (stList_reverse l).list.length = l.list.length ∧
    ∀ p : Nat, (stList_reverse l).list.getD p none =
      if p < l.length then l.list.getD (l.length - 1 - p) none
      else l.list.getD p none := by
  obtain ⟨s1, s2, s3, s4, s5⟩ :=
    reverseLoop_getD (stList_length (some l) / 2) l 0 (stList_length (some l))
      (by rw [stList_length_some]; exact hWF.2 ▸ hWF.1) (by omega) (by omega)
  refine ⟨s1, s2, s3, s4, ?_⟩
  intro p
  rw [show stList_reverse l = reverseLoop l 0 (stList_length (some l))
      (stList_length (some l) / 2) from rfl]
  rw [s5 p, stList_length_some]
  by_cases hp : p < l.length
  · rw [if_pos (show 0 ≤ p ∧ p < l.length - 0 by omega), if_pos hp]
  · rw [if_neg (by omega), if_neg hp]

/-- C9: `stList_reverse` applied twice restores the container exactly (list
structure included), a single application reverses the live prefix, and the
element originally at index `i` ends up at index `length - 1 - i`. -/
theorem reverse_involution_spec (l : StList α) (hWF : listWF l) :
    stList_reverse (stList_reverse l) = l ∧
    liveElems (stList_reverse l) = (liveElems l).reverse ∧
    (∀ i : Nat, i < l.length →
      bufGet (stList_reverse l) (l.length - 1 - i) = bufGet l i) := by
  obtain ⟨r1, r2, r3, r4, r5⟩ := reverse_getD l hWF
  have hWF2 : listWF (stList_reverse l) := by
    constructor
    · rw [r1, r2]; exact hWF.1
    · rw [r4, r2]; exact hWF.2
  obtain ⟨q1, q2, q3, q4, q5⟩ := reverse_getD (stList_reverse l) hWF2
  refine ⟨?_, ?_, ?_⟩
  · -- double reverse: all four fields agree
    have hlist : (stList_reverse (stList_reverse l)).list = l.list := by
      apply list_ext_getD none
      · rw [q4, r4]
      · intro p
        rw [q5 p, r1]
        by_cases hp : p < l.length
        · rw [if_pos hp, r5 (l.length - 1 - p), if_pos (by omega)]
          congr 1
          omega
        · rw [if_neg hp, r5 p, if_neg hp]
    have hlen : (stList_reverse (stList_reverse l)).length = l.length := by rw [q1, r1]
    have hmax : (stList_reverse (stList_reverse l)).maxLength = l.maxLength := by rw [q2, r2]
    have hdes : (stList_reverse (stList_reverse l)).hasDestructor = l.hasDestructor := by
      rw [q3, r3]
    cases hrev : stList_reverse (stList_reverse l) with
    | mk xs n m d =>
      rw [hrev] at hlist hlen hmax hdes
      cases l with
      | mk xs2 n2 m2 d2 =>
        simp only [] at hlist hlen hmax hdes
        rw [hlist, hlen, hmax, hdes]
  · -- single reverse reverses the live prefix
    have hlenrev : (liveElems (stList_reverse l)).length = (liveElems l).reverse.length := by
      rw [liveElems_length _ hWF2, r1, List.length_reverse, liveElems_length _ hWF]
    apply list_ext_getD none _ _ hlenrev
    intro p
    by_cases hp : p < l.length
    · have h5 := r5 p
      rw [if_pos hp] at h5
      rw [← bufGet_eq_liveElems _ hWF2 p (by rw [r1]; exact hp), bufGet, h5,
        getD_reverse _ _ _ (by rw [liveElems_length _ hWF]; exact hp),
        liveElems_length _ hWF,
        ← bufGet_eq_liveElems _ hWF (l.length - 1 - p) (by omega), bufGet]
    · rw [List.getD_eq_default _ _ (by rw [liveElems_length _ hWF2, r1]; omega),
        List.getD_eq_default _ _ (by rw [List.length_reverse, liveElems_length _ hWF]; omega)]
  · intro i hi
    have h5 := r5 (l.length - 1 - i)
    rw [if_pos (by omega)] at h5
    show (stList_reverse l).list.getD (l.length - 1 - i) none = bufGet l i
    rw [h5, bufGet]
    congr 1
    omega

theorem reverse_involution_spec_witness :
    listWF demoList ∧
    (stList_reverse (stList_reverse demoList) = demoList ∧
      liveElems (stList_reverse demoList) = (liveElems demoList).reverse ∧
      (∀ i : Nat, i < demoList.length →
        bufGet (stList_reverse demoList) (demoList.length - 1 - i) = bufGet demoList i)) :=
  ⟨by decide, reverse_involution_spec demoList (by decide)⟩

/-!  ## `stList_destruct` characterization -/

theorem destructElementsLoop_eq (l : StList α) (hWF : listWF l) (fuel : Nat) :
    ∀ i : Nat, l.length - i ≤ fuel →
    destructElementsLoop l i fuel =
      (((liveElems l).drop i).filterMap id).map DestructEvent.destructElem := by
  induction fuel with
  | zero =>
    intro i hf
    have hnil : (liveElems l).drop i = [] := by
      apply List.drop_eq_nil_of_le
      rw [liveElems_length l hWF]
      omega
    rw [hnil]
    rfl
  | succ fuel ih =>
    intro i hf
    by_cases hi : i < l.length
    · have hb : i < l.list.length := by
        have := hWF.1; have := hWF.2; omega
      have hrw : destructElementsLoop l i (fuel + 1) =
          (match bufGet l i with
           | none => []
           | some a => [DestructEvent.destructElem a]) ++ destructElementsLoop l (i + 1) fuel := by
        simp only [destructElementsLoop]
        rw [if_pos (by rw [stList_length_some]; exact hi)]
      have hdrop : (liveElems l).drop i = bufGet l i :: (liveElems l).drop (i + 1) := by
        have hlive : i < (liveElems l).length := by rw [liveElems_length l hWF]; exact hi
        rw [List.drop_eq_getElem_cons hlive]
        congr 1
        rw [liveElems_getElem l i hlive hb, bufGet_eq_getElem l i hb]
      rw [hrw, ih (i + 1) (by omega), hdrop]
      cases hcase : bufGet l i with
      | none => simp
      | some a => simp
    · have hrw : destructElementsLoop l i (fuel + 1) = [] := by
        simp only [destructElementsLoop]
        rw [if_neg (by rw [stList_length_some]; omega)]
      have hnil : (liveElems l).drop i = [] := by
        apply List.drop_eq_nil_of_le
        rw [liveElems_length l hWF]
        omega
      rw [hrw, hnil]
      rfl

theorem destructElements_eq (l : StList α) (hWF : listWF l) :
    destructElements l = ((liveElems l).filterMap id).map DestructEvent.destructElem := by
  rw [destructElements, stList_length_some,
    destructElementsLoop_eq l hWF l.length 0 (by omega), List.drop_zero]

/-- C1 (counterexample): on a container of length 1 whose single live
element is the `NULL` reference and whose destructor is registered,
`stList_destruct` invokes the destructor zero times — not once per live
element as the claim states — because `destructElements` skips `NULL`
entries. -/
theorem destruct_skips_null_counterexample :
    nullElementList.hasDestructor = true ∧
    stList_length (some nullElementList) = 1 ∧
    destructorCalls (some nullElementList) = [] ∧
    ¬ (destructorCalls (some nullElementList)).length =
        stList_length (some nullElementList) := by
  refine ⟨rfl, rfl, rfl, ?_⟩
  decide

/-- C1 (amended): `stList_destruct` on a `NULL` pointer is a no-op; on a
container it invokes the registered destructor exactly once on each
non-`NULL` live element, in index order (`NULL` elements in slots
`[0, length)` are skipped), then frees the storage buffer, then the
container struct. -/
theorem destruct_trace_spec (l : StList α) (hWF : listWF l) :
    stList_destruct (none : Option (StList α)) = [] ∧
    stList_destruct (some l) =
      (if l.hasDestructor then
        ((liveElems l).filterMap id).map DestructEvent.destructElem
       else []) ++ [DestructEvent.freeBuffer, DestructEvent.freeContainer] ∧
    destructorCalls (some l) =
      (if l.hasDestructor then (liveElems l).filterMap id else []) := by
  have htrace : stList_destruct (some l) =
      (if l.hasDestructor then
        ((liveElems l).filterMap id).map DestructEvent.destructElem
       else []) ++ [DestructEvent.freeBuffer, DestructEvent.freeContainer] := by
    rw [stList_destruct]
    by_cases hd : l.hasDestructor
    · rw [if_pos hd, if_pos hd, destructElements_eq l hWF]
    · rw [if_neg hd, if_neg hd]
  refine ⟨rfl, htrace, ?_⟩
  rw [destructorCalls, htrace, List.filterMap_append]
  by_cases hd : l.hasDestructor
  · rw [if_pos hd, if_pos hd, List.filterMap_map]
    have hcomp : ((fun e => match e with
        | DestructEvent.destructElem a => some a
        | _ => none) ∘ (DestructEvent.destructElem (α := α))) = some := rfl
    rw [hcomp, List.filterMap_some]
    simp
  · rw [if_neg hd, if_neg hd]
    simp

theorem destruct_trace_spec_witness :
    listWF destructDemoList ∧
    stList_destruct (some destructDemoList) =
      (if destructDemoList.hasDestructor then
        ((liveElems destructDemoList).filterMap id).map DestructEvent.destructElem
       else []) ++ [DestructEvent.freeBuffer, DestructEvent.freeContainer] :=
  ⟨by decide, (destruct_trace_spec destructDemoList (by decide)).2.1⟩

/-!  ## Iterator claims -/

/-- C5: `stList_getNext` returns `NULL` without advancing when the
container pointer is `NULL` or the cursor has reached `length`, and
otherwise returns the element at the cursor and advances it by 1;
`stList_getPrevious` returns `NULL` without moving when the container is
`NULL` or the cursor is 0, and otherwise decrements the cursor and returns
the element now under it; after advancing a fresh iterator to exhaustion
(`length` calls), a single `stList_getPrevious` returns the last element. -/
theorem iterator_traversal_spec (l : StList α) (it : StListIterator α) :
    (it.list = none → stList_getNext it = (none, it) ∧ stList_getPrevious it = (none, it)) ∧
    (it.list = some l → l.length ≤ it.index → stList_getNext it = (none, it)) ∧
    (it.list = some l → it.index < l.length →
      stList_getNext it = (bufGet l it.index, { it with index := it.index + 1 })) ∧
    (it.list = some l → it.index = 0 → stList_getPrevious it = (none, it)) ∧
    (it.list = some l → 0 < it.index →
      stList_getPrevious it = (bufGet l (it.index - 1), { it with index := it.index - 1 })) ∧
    (∀ n : Nat, (nextCursor^[n] (stList_getIterator (some l))).list = some l ∧
      (nextCursor^[n] (stList_getIterator (some l))).index = min n l.length) ∧
    (0 < l.length →
      (stList_getPrevious (nextCursor^[l.length] (stList_getIterator (some l)))).1 =
        bufGet l (l.length - 1)) := by
  have hiter : ∀ n : Nat, (nextCursor^[n] (stList_getIterator (some l))).list = some l ∧
      (nextCursor^[n] (stList_getIterator (some l))).index = min n l.length := by
    intro n
    induction n with
    | zero => exact ⟨rfl, by simp [stList_getIterator]⟩
    | succ n ihn =>
      rw [Function.iterate_succ_apply']
      obtain ⟨ih1, ih2⟩ := ihn
      by_cases hn : n < l.length
      · have hlt : (nextCursor^[n] (stList_getIterator (some l))).index < l.length := by
          rw [ih2]; omega
        constructor
        · simp only [nextCursor, stList_getNext, ih1]
          rw [if_neg (by rw [stList_length_some]; omega)]
        · simp only [nextCursor, stList_getNext, ih1]
          rw [if_neg (by rw [stList_length_some]; omega)]
          simp only []
          rw [ih2]
          omega
      · have hge : (nextCursor^[n] (stList_getIterator (some l))).index ≥ l.length := by
          rw [ih2]; omega
        constructor
        · simp only [nextCursor, stList_getNext, ih1]
          rw [if_pos (by rw [stList_length_some]; omega)]
          exact ih1
        · simp only [nextCursor, stList_getNext, ih1]
          rw [if_pos (by rw [stList_length_some]; omega)]
          rw [ih2]
          omega
  refine ⟨?_, ?_, ?_, ?_, ?_, hiter, ?_⟩
  · intro h
    constructor
    · simp only [stList_getNext, h]
    · simp only [stList_getPrevious, h]
  · intro h hle
    simp only [stList_getNext, h]
    rw [if_pos (by rw [stList_length_some]; omega)]
  · intro h hlt
    simp only [stList_getNext, h]
    rw [if_neg (by rw [stList_length_some]; omega)]
  · intro h h0
    simp only [stList_getPrevious, h]
    rw [if_pos h0]
  · intro h h0
    simp only [stList_getPrevious, h]
    rw [if_neg (by omega)]
  · intro hpos
    obtain ⟨h1, h2⟩ := hiter l.length
    simp only [stList_getPrevious, h1]
    rw [if_neg (by rw [h2]; omega), h2]
    simp only []
    congr 1
    omega

theorem iterator_traversal_spec_witness :
    (stList_getIterator (some demoList) : StListIterator Nat).list = some demoList ∧
    (stList_getIterator (some demoList)).index < demoList.length ∧
    stList_getNext (stList_getIterator (some demoList)) =
      (bufGet demoList (stList_getIterator (some demoList)).index,
        { stList_getIterator (some demoList) with
          index := (stList_getIterator (some demoList)).index + 1 }) :=
  ⟨rfl, by decide,
    (iterator_traversal_spec demoList (stList_getIterator (some demoList))).2.2.1 rfl
      (by decide)⟩

/-- C10: when the slot under the cursor holds the stored `NULL` reference,
`stList_getNext` returns the `NULL` marker yet still advances the cursor;
that return value is identical to the one produced at end-of-iteration (so
a `NULL` return cannot distinguish a stored `NULL` element from
exhaustion), and the following `stList_getNext` call proceeds past the
`NULL` element to the next one. -/
theorem iterator_null_element_spec (l : StList α) (it : StListIterator α)
    (hit : it.list = some l) (hidx : it.index < l.length)
    (hnull : bufGet l it.index = none) :
    (stList_getNext it).1 = none ∧
    (stList_getNext it).2.index = it.index + 1 ∧
    (∀ (l2 : StList α) (it2 : StListIterator α), it2.list = some l2 →
      l2.length ≤ it2.index → (stList_getNext it).1 = (stList_getNext it2).1) ∧
    (it.index + 1 < l.length →
      (stList_getNext ((stList_getNext it).2)).1 = bufGet l (it.index + 1)) := by
  have hnext : stList_getNext it = (bufGet l it.index, { it with index := it.index + 1 }) := by
    simp only [stList_getNext, hit]
    rw [if_neg (by rw [stList_length_some]; omega)]
  refine ⟨?_, ?_, ?_, ?_⟩
  · rw [hnext, hnull]
  · rw [hnext]
  · intro l2 it2 hit2 hle2
    have hnext2 : stList_getNext it2 = (none, it2) := by
      simp only [stList_getNext, hit2]
      rw [if_pos (by rw [stList_length_some]; omega)]
    rw [hnext, hnext2, hnull]
  · intro hlt
    rw [hnext]
    simp only [stList_getNext, hit]
    rw [if_neg (by simp only [stList_length_some]; omega)]

theorem iterator_null_element_spec_witness :
    (stList_getIterator (some nullFirstList) : StListIterator Nat).list = some nullFirstList ∧
    (stList_getIterator (some nullFirstList)).index < nullFirstList.length ∧
    bufGet nullFirstList (stList_getIterator (some nullFirstList)).index = none ∧
    ((stList_getNext (stList_getIterator (some nullFirstList))).1 = none ∧
      (stList_getNext (stList_getIterator (some nullFirstList))).2.index =
        (stList_getIterator (some nullFirstList)).index + 1 ∧
      (∀ (l2 : StList Nat) (it2 : StListIterator Nat), it2.list = some l2 →
        l2.length ≤ it2.index →
        (stList_getNext (stList_getIterator (some nullFirstList))).1 =
          (stList_getNext it2).1) ∧
      ((stList_getIterator (some nullFirstList)).index + 1 < nullFirstList.length →
        (stList_getNext ((stList_getNext (stList_getIterator (some nullFirstList))).2)).1 =
          bufGet nullFirstList ((stList_getIterator (some nullFirstList)).index + 1))) :=
  ⟨rfl, by decide, by decide,
    iterator_null_element_spec nullFirstList (stList_getIterator (some nullFirstList)) rfl
      (by decide) (by decide)⟩

/-!  ## Filter claims -/

theorem liveElems_drop_cons (l : StList α) (hWF : listWF l) (i : Nat) (hi : i < l.length) :
    (liveElems l).drop i = bufGet l i :: (liveElems l).drop (i + 1) := by
  have hb : i < l.list.length := by have := hWF.1; have := hWF.2; omega
  have hlive : i < (liveElems l).length := by rw [liveElems_length l hWF]; exact hi
  rw [List.drop_eq_getElem_cons hlive]
  congr 1
  rw [liveElems_getElem l i hlive hb, bufGet_eq_getElem l i hb]

theorem filterPLoop_eq (s : Ref α → Bool) (incl : Bool) (l : StList α) (hWF : listWF l)
    (fuel : Nat) : ∀ (i : Nat) (acc : StList α), listWF acc → l.length - i ≤ fuel →
    ∃ res, filterPLoop l s incl i fuel acc = some res ∧ listWF res ∧
      liveElems res = liveElems acc ++
        ((liveElems l).drop i).filter (fun o => (s o && incl) || (!s o && !incl)) := by
  induction fuel with
  | zero =>
    intro i acc hacc hf
    have hnil : (liveElems l).drop i = [] := by
      apply List.drop_eq_nil_of_le
      rw [liveElems_length l hWF]
      omega
    refine ⟨acc, rfl, hacc, ?_⟩
    rw [hnil]
    simp
  | succ fuel ih =>
    intro i acc hacc hf
    by_cases hi : i < l.length
    · have hdrop := liveElems_drop_cons l hWF i hi
      by_cases hpred : ((s (bufGet l i) && incl) || (!s (bufGet l i) && !incl)) = true
      · obtain ⟨acc2, happ, hwf2, _, _, hlive2, _, _⟩ := append_eq acc (bufGet l i) hacc
        obtain ⟨res, hres, hwfres, hliveres⟩ := ih (i + 1) acc2 hwf2 (by omega)
        refine ⟨res, ?_, hwfres, ?_⟩
        · simp only [filterPLoop]
          rw [if_pos (by rw [stList_length_some]; omega), if_pos hpred, happ]
          exact hres
        · rw [hliveres, hlive2, hdrop, List.filter_cons, if_pos hpred,
            List.append_assoc, List.singleton_append]
      · obtain ⟨res, hres, hwfres, hliveres⟩ := ih (i + 1) acc hacc (by omega)
        refine ⟨res, ?_, hwfres, ?_⟩
        · simp only [filterPLoop]
          rw [if_pos (by rw [stList_length_some]; omega), if_neg hpred]
          exact hres
        · rw [hliveres, hdrop, List.filter_cons, if_neg hpred]
    · have hnil : (liveElems l).drop i = [] := by
        apply List.drop_eq_nil_of_le
        rw [liveElems_length l hWF]
        omega
      refine ⟨acc, ?_, hacc, ?_⟩
      · simp only [filterPLoop]
        rw [if_neg (by rw [stList_length_some]; omega)]
      · rw [hnil]
        simp

theorem filterP_eq (l : StList α) (s : Ref α → Bool) (incl : Bool) (hWF : listWF l) :
    ∃ res, filterP l s incl = some res ∧ listWF res ∧
      liveElems res = (liveElems l).filter (fun o => (s o && incl) || (!s o && !incl)) := by
  have hcon : (stList_construct : Option (StList α)) =
      some { list := [], length := 0, maxLength := 0, hasDestructor := false } := by
    rw [stList_construct, stList_construct3, if_pos (show (0 : Int) ≤ 0 by omega)]
    simp
  obtain ⟨res, hres, hwfres, hliveres⟩ :=
    filterPLoop_eq s incl l hWF (stList_length (some l)) 0
      { list := [], length := 0, maxLength := 0, hasDestructor := false }
      ⟨by simp, by simp⟩ (by rw [stList_length_some]; omega)
  refine ⟨res, ?_, hwfres, ?_⟩
  · rw [filterP, hcon]
    exact hres
  · rw [hliveres, List.drop_zero]
    rfl

/-- C6: for any membership test of the external sorted set,
`stList_filterToInclude` and `stList_filterToExclude` both preserve the
source's element order (their live prefixes are sublists of the source's)
and partition the source's elements: their multisets add up exactly to the
source's multiset. -/
theorem filter_partition_spec (l : StList α) (s : Ref α → Bool) (hWF : listWF l) :
    ∃ li le, stList_filterToInclude l s = some li ∧
      stList_filterToExclude l s = some le ∧
      liveElems li = (liveElems l).filter s ∧
      liveElems le = (liveElems l).filter (fun o => !s o) ∧
      (liveElems li).Sublist (liveElems l) ∧
      (liveElems le).Sublist (liveElems l) ∧
      ((liveElems li : Multiset (Ref α)) + (liveElems le : Multiset (Ref α)) =
        (liveElems l : Multiset (Ref α))) := by
  obtain ⟨li, hi, _, hlivei⟩ := filterP_eq l s true hWF
  obtain ⟨le2, he, _, hlivee⟩ := filterP_eq l s false hWF
  have hpi : (fun o => (s o && true) || (!s o && !true)) = s := by
    funext o
    cases s o <;> rfl
  have hpe : (fun o => (s o && false) || (!s o && !false)) = (fun o => !s o) := by
    funext o
    cases s o <;> rfl
  rw [hpi] at hlivei
  rw [hpe] at hlivee
  refine ⟨li, le2, hi, he, hlivei, hlivee, ?_, ?_, ?_⟩
  · rw [hlivei]
    exact List.filter_sublist _
  · rw [hlivee]
    exact List.filter_sublist _
  · rw [hlivei, hlivee, Multiset.coe_add]
    exact Multiset.coe_eq_coe.mpr (List.filter_append_perm s (liveElems l))

theorem filter_partition_spec_witness :
    listWF demoList ∧
    (∃ li le, stList_filterToInclude demoList (fun r => decide (r = some 2)) = some li ∧
      stList_filterToExclude demoList (fun r => decide (r = some 2)) = some le ∧
      liveElems li = (liveElems demoList).filter (fun r => decide (r = some 2)) ∧
      liveElems le = (liveElems demoList).filter (fun o => !decide (o = some 2)) ∧
      (liveElems li).Sublist (liveElems demoList) ∧
      (liveElems le).Sublist (liveElems demoList) ∧
      ((liveElems li : Multiset (Ref Nat)) + (liveElems le : Multiset (Ref Nat)) =
        (liveElems demoList : Multiset (Ref Nat)))) :=
  ⟨by decide, filter_partition_spec demoList (fun r => decide (r = some 2)) (by decide)⟩

/-!  ## Well-formedness preservation -/

theorem construct3_wf (n : Int) (d : Bool) (l : StList α)
    (h : stList_construct3 n d = some l) : listWF l := by
  rw [stList_construct3] at h
  split at h
  · obtain rfl := Option.some.inj h
    exact ⟨le_refl _, by simp⟩
  · exact Option.noConfusion h

theorem append_wf (l l2 : StList α) (x : Ref α) (hWF : listWF l)
    (h : stList_append l x = some l2) : listWF l2 := by
  obtain ⟨l2x, heq, hwf2, _, _, _, _, _⟩ := append_eq l x hWF
  rw [heq] at h
  obtain rfl := Option.some.inj h
  exact hwf2

theorem appendAllLoop_wf (src : StList α) (fuel : Nat) :
    ∀ (dst : StList α) (i : Nat) (d2 : StList α), listWF dst →
    appendAllLoop dst src i fuel = some d2 → listWF d2 := by
  induction fuel with
  | zero =>
    intro dst i d2 hdst h
    simp only [appendAllLoop] at h
    obtain rfl := Option.some.inj h
    exact hdst
  | succ fuel ih =>
    intro dst i d2 hdst h
    simp only [appendAllLoop] at h
    split at h
    · split at h
      · exact Option.noConfusion h
      · split at h
        · exact Option.noConfusion h
        · next dst2 happ =>
            obtain ⟨l2x, heq2, hwf2, _, _, _, _, _⟩ := append_eq dst _ hdst
            rw [happ] at heq2
            obtain rfl := Option.some.inj heq2
            exact ih dst2 (i + 1) d2 hwf2 h
    · obtain rfl := Option.some.inj h
      exact hdst

theorem set_wf (l : StList α) (i : Int) (x : Ref α) (l2 : StList α) (hWF : listWF l)
    (h : stList_set l i x = some l2) : listWF l2 := by
  rw [stList_set] at h
  split at h
  · obtain rfl := Option.some.inj h
    exact ⟨hWF.1, by simp only [List.length_set]; exact hWF.2⟩
  · exact Option.noConfusion h

theorem remove_wf (l : StList α) (i : Int) (o : Ref α) (l2 : StList α) (hWF : listWF l)
    (h : stList_remove l i = some (o, l2)) : listWF l2 := by
  have hcond : 0 ≤ i ∧ i < (stList_length (some l) : Int) := by
    by_contra hc
    rw [stList_remove, if_neg hc] at h
    exact Option.noConfusion h
  have hi : i.toNat < l.length := by
    have := hcond.2
    rw [stList_length_some] at this
    omega
  have hnat : (i.toNat : Int) = i := Int.toNat_of_nonneg hcond.1
  obtain ⟨l2x, heq, hwf2, _, _, _, _, _, _⟩ := remove_eq l i.toNat hWF hi
  rw [hnat] at heq
  rw [heq] at h
  have hpair := Option.some.inj h
  have : l2x = l2 := congrArg Prod.snd hpair
  rw [← this]
  exact hwf2

theorem removeItemLoop_wf [inst : DecidableEq α] (item : Ref α) (fuel : Nat) :
    ∀ (l : StList α) (i : Nat), listWF l → listWF (removeItemLoop l item i fuel) := by
  induction fuel with
  | zero =>
    intro l i hWF
    exact hWF
  | succ fuel ih =>
    intro l i hWF
    simp only [removeItemLoop]
    split
    · split
      · split
        · next o l2 hrem => exact remove_wf l _ o l2 hWF hrem
        · exact hWF
      · exact ih l (i + 1) hWF
    · exact hWF

theorem reverse_wf (l : StList α) (hWF : listWF l) : listWF (stList_reverse l) := by
  obtain ⟨r1, r2, _, r4, _⟩ := reverse_getD l hWF
  exact ⟨by rw [r1, r2]; exact hWF.1, by rw [r4, r2]; exact hWF.2⟩

theorem sort_wf (l : StList α) (cmpFn : Ref α → Ref α → Int) (hWF : listWF l) :
    listWF (stList_sort l cmpFn) := by
  constructor
  · exact hWF.1
  · simp only [stList_sort, List.length_append, List.length_mergeSort, List.length_take,
      List.length_drop]
    have := hWF.1
    have := hWF.2
    omega

theorem shuffleLoop_wf (rand : Nat → Nat) (fuel : Nat) :
    ∀ (l l2 : StList α) (i : Nat), listWF l →
    shuffleLoop l rand i fuel = some l2 → listWF l2 := by
  induction fuel with
  | zero =>
    intro l l2 i hWF h
    simp only [shuffleLoop] at h
    obtain rfl := Option.some.inj h
    exact hWF
  | succ fuel ih =>
    intro l l2 i hWF h
    simp only [shuffleLoop] at h
    split at h
    · split at h
      · exact ih
          { l with list := (l.list.set i (bufGet l (rand i))).set (rand i) (bufGet l i) }
          l2 (i + 1) ⟨hWF.1, by simp only [List.length_set]; exact hWF.2⟩ h
      · exact Option.noConfusion h
    · obtain rfl := Option.some.inj h
      exact hWF

/-- C8: `0 ≤ length ≤ maxLength` (with the buffer holding exactly
`maxLength` slots) holds of every container produced by the constructors
and is preserved by every mutating operation: append, appendAll, set,
remove, removeFirst, pop, removeItem, reverse, sort and shuffle.
(`length` is a `Nat` in the model because it is provably non-negative.) -/
theorem wf_invariant_spec (α : Type) :
    (∀ (n : Int) (d : Bool) (l : StList α), stList_construct3 n d = some l → listWF l) ∧
    (∀ l : StList α, stList_construct = some l → listWF l) ∧
    (∀ (n : Int) (l : StList α), stList_construct2 n = some l → listWF l) ∧
    (∀ (l l2 : StList α) (x : Ref α), listWF l → stList_append l x = some l2 → listWF l2) ∧
    (∀ dst src d2 : StList α, listWF dst → stList_appendAll dst src = some d2 → listWF d2) ∧
    (∀ (l l2 : StList α) (i : Int) (x : Ref α), listWF l →
      stList_set l i x = some l2 → listWF l2) ∧
    (∀ (l l2 : StList α) (i : Int) (o : Ref α), listWF l →
      stList_remove l i = some (o, l2) → listWF l2) ∧
    (∀ (l l2 : StList α) (o : Ref α), listWF l →
      stList_removeFirst l = some (o, l2) → listWF l2) ∧
    (∀ (l l2 : StList α) (o : Ref α), listWF l → stList_pop l = some (o, l2) → listWF l2) ∧
    (∀ [_inst : DecidableEq α] (l : StList α) (x : Ref α), listWF l →
      listWF (stList_removeItem l x)) ∧
    (∀ l : StList α, listWF l → listWF (stList_reverse l)) ∧
    (∀ (l : StList α) (cmpFn : Ref α → Ref α → Int), listWF l →
      listWF (stList_sort l cmpFn)) ∧
    (∀ (l l2 : StList α) (rand : Nat → Nat), listWF l →
      stList_shuffle l rand = some l2 → listWF l2) := by
  refine ⟨construct3_wf, ?_, ?_, append_wf, ?_, ?_, ?_, ?_, ?_, ?_, reverse_wf, sort_wf, ?_⟩
  · intro l h
    exact construct3_wf 0 false l h
  · intro n l h
    exact construct3_wf n false l h
  · intro dst src d2 h1 h2
    exact appendAllLoop_wf src (stList_length (some src)) dst 0 d2 h1 h2
  · intro l l2 i x h1 h2
    exact set_wf l i x l2 h1 h2
  · intro l l2 i o h1 h2
    exact remove_wf l i o l2 h1 h2
  · intro l l2 o h1 h2
    exact remove_wf l 0 o l2 h1 h2
  · intro l l2 o h1 h2
    exact remove_wf l ((stList_length (some l) : Int) - 1) o l2 h1 h2
  · intro _inst l x h1
    exact removeItemLoop_wf x (stList_length (some l)) l 0 h1
  · intro l l2 rand h1 h2
    exact shuffleLoop_wf rand (stList_length (some l)) l l2 0 h1 h2

theorem wf_invariant_spec_witness :
    listWF fullDemoList ∧ listWF (stList_reverse fullDemoList) :=
  ⟨by decide,
    (wf_invariant_spec Nat).2.2.2.2.2.2.2.2.2.2.1 fullDemoList (by decide)⟩

end SonLib
